import Mathlib

/-!
# Verification of the kalman-bee-tracking engine

Shallow embedding of `kalman-filter-tracking.py` (class `KalmanFilterCLI`).

Modelling decisions:
* Python floats are modelled as exact rationals (`ℚ`) in the tracking engine;
  the rotated-ellipse geometry (`ellipse_quad`, `check_direction`) involves
  trigonometric functions and is modelled over the reals (`ℝ`).
* The numeric library collaborators — `filterpy.kalman.KalmanFilter.predict`
  / `.update`, `numpy.linalg.norm` and `scipy.optimize.linear_sum_assignment`
  — are external packages, not code of this repository.  The engine is
  parameterised over them (`Oracle`): `predict`, `update`, `birth` (the birth
  initialisation `kf_new.x = [x, y, 0, 0]` packaged with the filter state),
  `pos` (the first two components `kf.x[:2]` of the state), `dist`
  (the norm used for the cost matrix) and `assign` (the assignment solver,
  taking the cost matrix and the two dimensions).
* Python mutates track dicts in place and `all_tracks` holds references to
  the same dicts; this aliasing is modelled by keeping the active tracks
  (`tracks`), the pruned ones (`dead`, whose dicts are never mutated again
  once pruned) and the registry as the list of registered ids (`all_ids`),
  the registered data being recovered by id lookup (`finalRegistry`).
* `created` is a ghost field recording the ids of all tracks ever created,
  in creation order.
-/

set_option allowUnsafeReducibility true
attribute [semireducible] Rat.add Rat.sub

/-- A detection / 2-D position, Python `(center_x, center_y)`. -/
abbrev Obs : Type := ℚ × ℚ

/-- The external numeric collaborators of the engine (filterpy, numpy, scipy). -/
structure Oracle (κ : Type) where
  predict : κ → κ
  update : κ → Obs → κ
  birth : Obs → κ
  pos : κ → Obs
  dist : Obs → Obs → ℚ
  assign : (ℕ → ℕ → ℚ) → ℕ → ℕ → List (ℕ × ℕ)

/-- One track dict of `track_insects_one_file`:
`{'kf': .., 'id': .., 'last_seen': .., 'positions': .., 'distance': .., 'frame_ids': ..}`. -/
structure Track (κ : Type) where
  kf : κ
  id : ℕ
  last_seen : ℕ
  positions : List Obs
  distance : ℚ
  frame_ids : List ℤ
deriving DecidableEq

/-- The per-run mutable state of the frame loop (lines 223–275 of the source). -/
structure EngineState (κ : Type) where
  tracks : List (Track κ)
  dead : List (Track κ)
  all_ids : List ℕ
  track_id : ℕ
  created : List ℕ
deriving DecidableEq

/-- `tracks = []`, `all_tracks = []`, `track_id = 0` (lines 223–225). -/
def initState {κ : Type} : EngineState κ := ⟨[], [], [], 0, []⟩

/-- `List.modify` written out, so that its index lemmas are proved here:
Python's in-place mutation `tracks[i] = f(tracks[i])`. -/
def modifyIdx {α : Type} (f : α → α) : ℕ → List α → List α
  | _, [] => []
  | 0, t :: ts => f t :: ts
  | n + 1, t :: ts => t :: modifyIdx f n ts

/-- Lines 230–232: `track['kf'].predict(); track['last_seen'] += 1` for every
active track. -/
def predictPhase {κ : Type} (O : Oracle κ) (ts : List (Track κ)) : List (Track κ) :=
  ts.map fun t => { t with kf := O.predict t.kf, last_seen := t.last_seen + 1 }

/-- Lines 235–238: `cost_matrix[i, j] = norm(track['kf'].x[:2] - obs)`, the
distance between track `i`'s predicted position and detection `j`
(0 outside the matrix bounds; scipy only ever reports in-range indices). -/
def costOf {κ : Type} (O : Oracle κ) (ts : List (Track κ)) (obs : List Obs)
    (i j : ℕ) : ℚ :=
  match ts[i]?, obs[j]? with
  | some t, some o => O.dist (O.pos t.kf) o
  | _, _ => 0

/-- Line 241: `linear_sum_assignment(cost_matrix)`, zipped into pairs. -/
def pairsOf {κ : Type} (O : Oracle κ) (ts : List (Track κ)) (obs : List Obs) :
    List (ℕ × ℕ) :=
  O.assign (costOf O ts obs) ts.length obs.length

/-- Lines 248–252: the body of an accepted match: `kf.update`, `last_seen = 0`,
append the detection to `positions`, add the cost to `distance`, append the
frame to `frame_ids`. -/
def matchTrack {κ : Type} (O : Oracle κ) (frame : ℤ) (o : Obs) (c : ℚ)
    (t : Track κ) : Track κ :=
  { t with kf := O.update t.kf o, last_seen := 0,
           positions := t.positions ++ [o], distance := t.distance + c,
           frame_ids := t.frame_ids ++ [frame] }

/-- Lines 246–254: walk the proposed pairs, applying the match body exactly to
those with `cost_matrix[i, j] < distance_threshold`. -/
def applyMatches {κ : Type} (O : Oracle κ) (dth : ℚ) (frame : ℤ) (obs : List Obs)
    (cost : ℕ → ℕ → ℚ) (ts : List (Track κ)) : List (ℕ × ℕ) → List (Track κ)
  | [] => ts
  | (i, j) :: ps =>
      applyMatches O dth frame obs cost
        (if cost i j < dth then
          modifyIdx (matchTrack O frame (obs.getD j (0, 0)) (cost i j)) i ts
        else ts) ps

/-- The proposed pairs that pass the `cost_matrix[i, j] < distance_threshold`
test (line 247). -/
def acceptedPairs (dth : ℚ) (cost : ℕ → ℕ → ℚ) (pairs : List (ℕ × ℕ)) :
    List (ℕ × ℕ) :=
  pairs.filter fun p => decide (cost p.1 p.2 < dth)

/-- Line 254: the set `assigned_observations` at the end of the match loop. -/
def assignedObs (dth : ℚ) (cost : ℕ → ℕ → ℚ) (pairs : List (ℕ × ℕ)) : List ℕ :=
  (acceptedPairs dth cost pairs).map Prod.snd

/-- Lines 257–258: the observation indices `j in range(len(observations))` with
`j not in assigned_observations`, in increasing order. -/
def birthIdx (assigned : List ℕ) (n : ℕ) : List ℕ :=
  (List.range n).filter fun j => decide (j ∉ assigned)

/-- Lines 259–267: birth one new track per unassigned observation, with the
running `track_id`, `last_seen = 0`, singleton `positions` and `frame_ids`,
`distance = 0`. -/
def bornTracks {κ : Type} (O : Oracle κ) (frame : ℤ) (obs : List Obs) :
    ℕ → List ℕ → List (Track κ)
  | _, [] => []
  | i, j :: js =>
      { kf := O.birth (obs.getD j (0, 0)), id := i, last_seen := 0,
        positions := [obs.getD j (0, 0)], distance := 0, frame_ids := [frame] }
        :: bornTracks O frame obs (i + 1) js

/-- Lines 272–275: register every still-active track not yet in `all_tracks`
(modelled on ids; appended in list order, as the Python loop does). -/
def registerPhase {κ : Type} (ids : List ℕ) (ts : List (Track κ)) : List ℕ :=
  ts.foldl (fun acc t => if t.id ∈ acc then acc else acc ++ [t.id]) ids

/-- One iteration of the frame loop (lines 226–275): predict, build the cost
matrix, solve the assignment, apply accepted matches, birth tracks for
unassigned observations, prune by `last_seen <= max_frames_before_death`,
register survivors. -/
def step {κ : Type} (O : Oracle κ) (dth : ℚ) (maxAge : ℕ) (frame : ℤ)
    (obs : List Obs) (st : EngineState κ) : EngineState κ :=
  let ts1 := predictPhase O st.tracks
  let cost := costOf O ts1 obs
  let pairs := pairsOf O ts1 obs
  let ts2 := applyMatches O dth frame obs cost ts1 pairs
  let born := bornTracks O frame obs st.track_id
      (birthIdx (assignedObs dth cost pairs) obs.length)
  let ts3 := ts2 ++ born
  { tracks := ts3.filter fun t => t.last_seen ≤ maxAge
    dead := st.dead ++ ts3.filter fun t => ¬ t.last_seen ≤ maxAge
    all_ids := registerPhase st.all_ids (ts3.filter fun t => t.last_seen ≤ maxAge)
    track_id := st.track_id + born.length
    created := st.created ++ born.map (·.id) }

/-- The frame loop `for frame in range(start_frame, end_frame + 1)`, with the
per-frame detections already grouped (`df[df['video_frame_id'] == frame]`). -/
def runFrames {κ : Type} (O : Oracle κ) (dth : ℚ) (maxAge : ℕ) :
    List (ℤ × List Obs) → EngineState κ → EngineState κ
  | [], st => st
  | (f, obs) :: rest, st => runFrames O dth maxAge rest (step O dth maxAge f obs st)

/-- The content of Python's `all_tracks` after the loop: the registered ids, each
resolved to the (unique) track dict carrying that id. -/
def finalRegistry {κ : Type} (st : EngineState κ) : List (Track κ) :=
  st.all_ids.filterMap fun i => (st.tracks ++ st.dead).find? fun t => t.id == i

/-- Line 277: `len(track['positions']) > 5 and track['distance'] > 100`. -/
def keptTrack {κ : Type} (t : Track κ) : Bool :=
  decide (5 < t.positions.length) && decide ((100 : ℚ) < t.distance)

/-- Stable descending insertion by `len(positions)`: skip (strictly) longer
tracks, then insert in front of the first track of equal or smaller length. -/
def insertTrack {κ : Type} (t : Track κ) : List (Track κ) → List (Track κ)
  | [] => [t]
  | u :: us =>
      if t.positions.length < u.positions.length then u :: insertTrack t us
      else t :: u :: us

/-- Line 279: `sorted(all_tracks, key=lambda x: len(x['positions']), reverse=True)`.
Python's `sorted` is a stable sort; with `reverse=True` equal keys keep their
original relative order, which this insertion sort realises. -/
def sortTracksDesc {κ : Type} : List (Track κ) → List (Track κ)
  | [] => []
  | t :: ts => insertTrack t (sortTracksDesc ts)

/-- Lines 276–280: the final surviving track list of a run. -/
def surviving {κ : Type} (st : EngineState κ) : List (Track κ) :=
  sortTracksDesc ((finalRegistry st).filter keptTrack)

/-! ## Zone geometry (`ellipse_quad`, `check_direction`, lines 293–350)

The geometry works on floats and trigonometric functions; it is modelled
exactly over the reals. -/

open Classical

/-- Return values of `ellipse_quad`: "upper-left", "upper-right", "lower-left",
"lower-right", "outside". -/
inductive Quad : Type
  | upperLeft | upperRight | lowerLeft | lowerRight | outside
deriving DecidableEq

/-- Return values of `check_direction`: 'inside', 'enter', 'exit', 'outside'. -/
inductive Direction : Type
  | inside | enter | exit | outside
deriving DecidableEq

/-- The zone: `((h, k), (a, b), theta)` — center, full axis lengths, rotation
in degrees (an entry of the `ellipses` dict). -/
structure Ellipse : Type where
  center : ℝ × ℝ
  axes : ℝ × ℝ
  rotation : ℝ

/-- Lines 293–328, `ellipse_quad(pos, ellipse)`: translate the point by the
center, rotate by `-theta` (degrees converted to radians), test the standard
ellipse inequality on semi-axes `a = axes.x/2`, `b = axes.y/2`, then classify
by the signs of the rotated coordinates.  The final `elif y_rot >= 0 and
x_rot >= 0` of the source is exhaustive at that point, so it is the `else`
branch here. -/
noncomputable def ellipse_quad (pos : ℝ × ℝ) (e : Ellipse) : Quad :=
  let x := pos.1
  let y := pos.2
  let h := e.center.1
  let k := e.center.2
  let a := e.axes.1 / 2
  let b := e.axes.2 / 2
  let theta := e.rotation * Real.pi / 180
  let xp := x - h
  let yp := y - k
  let x_rot := xp * Real.cos (-theta) - yp * Real.sin (-theta)
  let y_rot := xp * Real.sin (-theta) + yp * Real.cos (-theta)
  if x_rot ^ 2 / a ^ 2 + y_rot ^ 2 / b ^ 2 ≤ 1 then
    if y_rot ≤ 0 ∧ x_rot ≤ 0 then Quad.upperRight
    else if y_rot ≤ 0 ∧ x_rot ≥ 0 then Quad.lowerRight
    else if y_rot ≥ 0 ∧ x_rot ≤ 0 then Quad.upperLeft
    else Quad.lowerLeft
  else Quad.outside

/-- Line 335: `is_inside(quad)`. -/
def is_inside (q : Quad) : Bool :=
  q == Quad.upperLeft || q == Quad.upperRight

/-- Line 337: `is_outside(quad)` (defined in the source, never used there). -/
def is_outside (q : Quad) : Bool :=
  q == Quad.outside || q == Quad.lowerLeft || q == Quad.lowerRight

/-- Lines 330–350, `check_direction(start, end, ellipse)`. -/
noncomputable def check_direction (start stop : ℝ × ℝ) (e : Ellipse) : Direction :=
  let start_quad := ellipse_quad start e
  let end_quad := ellipse_quad stop e
  let start_inside := is_inside start_quad
  let end_inside := is_inside end_quad
  if start_inside && end_inside then Direction.inside
  else if start_inside && !end_inside then Direction.exit
  else if !start_inside && end_inside then Direction.enter
  else Direction.outside

/-! ## Direction counting and the one-file run (lines 276–291) -/

/-- The `counter` dict. -/
structure Counter : Type where
  inside : ℕ
  enter : ℕ
  exit : ℕ
  outside : ℕ
deriving DecidableEq

/-- All-zero counter (lines 281–286). -/
def counter0 : Counter := ⟨0, 0, 0, 0⟩

/-- `counter[track_direction] += 1` (line 289). -/
def bump (c : Counter) : Direction → Counter
  | Direction.inside => { c with inside := c.inside + 1 }
  | Direction.enter => { c with enter := c.enter + 1 }
  | Direction.exit => { c with exit := c.exit + 1 }
  | Direction.outside => { c with outside := c.outside + 1 }

/-- Rational detection coordinates seen as real points. -/
def castPt (p : Obs) : ℝ × ℝ := ((p.1 : ℝ), (p.2 : ℝ))

/-- Lines 287–289: classify every surviving track by its first and last matched
position and tally the four-way counts. -/
noncomputable def classifyAll {κ : Type} (e : Ellipse) (ts : List (Track κ)) : Counter :=
  ts.foldl
    (fun c t =>
      bump c (check_direction (castPt (t.positions.headD (0, 0)))
        (castPt (t.positions.getLastD (0, 0))) e))
    counter0

/-- `track_insects_one_file` (lines 200–291): run the frame loop, filter and
sort the historical registry, then classify each survivor against
`self.ellipse`.  When `self.ellipse` is `None` (no zone registered for the
run's date) and at least one track survives, `check_direction` evaluates
`ellipse[0]` on `None` and raises `TypeError`; the run produces no result,
modelled as `Option.none`.  With no survivor the classification loop body
never executes and the run returns the empty list with all-zero counts. -/
noncomputable def track_insects_one_file {κ : Type} (O : Oracle κ) (dth : ℚ)
    (maxAge : ℕ) (dets : List (ℤ × List Obs)) (e : Option Ellipse) :
    Option (List (Track κ) × Counter) :=
  let st := runFrames O dth maxAge dets initState
  let surv := surviving st
  match e with
  | some z => some (surv, classifyAll z surv)
  | none => if surv.isEmpty then some (surv, counter0) else none

/-! ## Concrete instantiation used for witnesses and counterexamples

A simple executable stand-in for the library collaborators: the filter state
is just the last position, `assign` proposes the diagonal pairing (a valid
one-to-one assignment), `dist` is the taxicab norm. -/

/-- Concrete oracle on `κ := ℚ × ℚ`. -/
def oracle0 : Oracle (ℚ × ℚ) where
  predict := id
  update := fun _ o => o
  birth := id
  pos := id
  dist := fun p q => |p.1 - q.1| + |p.2 - q.2|
  assign := fun _ m n => (List.range (min m n)).map fun i => (i, i)

/-- Eight frames, one detection each, moving 30 units per frame: the single
track collects 8 positions and cumulative distance `7 * 30 = 210`, so it
survives the `len > 5 ∧ distance > 100` filter. -/
def dets0 : List (ℤ × List Obs) :=
  [(1, [(0, 0)]), (2, [(30, 0)]), (3, [(60, 0)]), (4, [(90, 0)]),
   (5, [(120, 0)]), (6, [(150, 0)]), (7, [(180, 0)]), (8, [(210, 0)])]

/-! ## Spec-side transcriptions of the zone classifier (spec §4.4) -/

/-- `classify_quadrant` as the claim words it: translate by the zone center,
rotate by minus `rotation_degrees` converted to radians, semi-axes
`a = axes.x/2`, `b = axes.y/2`, a quadrant label iff the ellipse inequality
holds, the label given by the sign table, `outside` otherwise. -/
noncomputable def classify_quadrant_spec (p : ℝ × ℝ) (e : Ellipse) : Quad :=
  let xp := p.1 - e.center.1
  let yp := p.2 - e.center.2
  let phi := -(e.rotation * Real.pi / 180)
  let xr := xp * Real.cos phi - yp * Real.sin phi
  let yr := xp * Real.sin phi + yp * Real.cos phi
  let a := e.axes.1 / 2
  let b := e.axes.2 / 2
  if xr ^ 2 / a ^ 2 + yr ^ 2 / b ^ 2 ≤ 1 then
    if yr ≤ 0 ∧ xr ≤ 0 then Quad.upperRight
    else if yr ≤ 0 ∧ xr ≥ 0 then Quad.lowerRight
    else if yr ≥ 0 ∧ xr ≤ 0 then Quad.upperLeft
    else if yr ≥ 0 ∧ xr ≥ 0 then Quad.lowerLeft
    else Quad.outside
  else Quad.outside

/-- `classify_direction` as the claim words it: `is_inside` of the start and
end quadrants decides between inside / exit / enter / outside. -/
noncomputable def classify_direction_spec (start stop : ℝ × ℝ) (e : Ellipse) :
    Direction :=
  let s := is_inside (classify_quadrant_spec start e)
  let e2 := is_inside (classify_quadrant_spec stop e)
  if s && e2 then Direction.inside
  else if s && !e2 then Direction.exit
  else if !s && e2 then Direction.enter
  else Direction.outside

/-- The four sign cases `y ≤ 0 / y ≥ 0` × `x ≤ 0 / x ≥ 0` are exhaustive:
the source's `elif` chain inside the ellipse cannot fall through. -/
theorem signCasesAux {x y : ℝ} (h2 : ¬(y ≤ 0 ∧ x ≤ 0)) (h3 : ¬(y ≤ 0 ∧ x ≥ 0))
    (h4 : ¬(y ≥ 0 ∧ x ≤ 0)) (h5 : ¬(y ≥ 0 ∧ x ≥ 0)) : False := by
  rcases le_total y 0 with hy | hy
  · rcases le_total x 0 with hx | hx
    · exact h2 ⟨hy, hx⟩
    · exact h3 ⟨hy, hx⟩
  · rcases le_total x 0 with hx | hx
    · exact h4 ⟨hy, hx⟩
    · exact h5 ⟨hy, hx⟩

/-- Shared helper: the source's `ellipse_quad` agrees with the spec-side
`classify_quadrant_spec` everywhere. -/
theorem ellipse_quad_eq_spec (p : ℝ × ℝ) (e : Ellipse) :
    ellipse_quad p e = classify_quadrant_spec p e := by
  simp only [ellipse_quad, classify_quadrant_spec]
  split_ifs with h1 h2 h3 h4 h5 <;> try rfl
  exact (signCasesAux h2 h3 h4 h5).elim

/-- Claim C2: for every point and every zone, the quadrant classifier of the
source (`ellipse_quad`) computes exactly the spec's `classify_quadrant`:
translate by the center, rotate by minus the rotation (degrees → radians),
semi-axes are the half axes, a quadrant label iff
`x_rot²/a² + y_rot²/b² ≤ 1` with the verbatim sign table, `outside`
otherwise. -/
theorem claim_C2 (p : ℝ × ℝ) (e : Ellipse) :
    ellipse_quad p e = classify_quadrant_spec p e :=
  ellipse_quad_eq_spec p e

/-- Claim C8: for every start point, end point and zone, the direction
classifier of the source (`check_direction`) computes exactly the spec's
`classify_direction`: `inside` when both ends are in the upper half,
`exit` when only the start is, `enter` when only the end is, `outside`
when neither is. -/
theorem claim_C8 (p q : ℝ × ℝ) (e : Ellipse) :
    check_direction p q e = classify_direction_spec p q e := by
  simp only [check_direction, classify_direction_spec, ellipse_quad_eq_spec]

/-- Claim C1, amended, and counterexample below: with no zone registered the
engine produces a result only when no track survives the quality filter (and
that result still carries the all-zero counts rather than omitting them);
with at least one surviving track the classification step fails and no
tracking result is produced.  (In the CLI loop, `track_insects` skips such a
file before the engine ever runs, lines 180–183.) -/
theorem claim_C1 {κ : Type} (O : Oracle κ) (dth : ℚ) (maxAge : ℕ)
    (dets : List (ℤ × List Obs)) :
    track_insects_one_file O dth maxAge dets Option.none =
      if (surviving (runFrames O dth maxAge dets initState)).isEmpty then
        some ([], counter0)
      else none := by
  simp only [track_insects_one_file]
  rcases h : (surviving (runFrames O dth maxAge dets initState)).isEmpty with _ | _
  · simp [h]
  · simp [h, List.isEmpty_iff.mp h]

/-- Claim C1 is refuted on this run: eight one-detection frames with no zone
registered; one track survives the filter, and `track_insects_one_file`
raises (returns no tracking result) instead of producing the surviving track
list without classification. -/
theorem claim_C1_counterexample :
    track_insects_one_file oracle0 50 20 dets0 Option.none = Option.none ∧
    surviving (runFrames oracle0 50 20 dets0 initState) ≠ [] := by
  constructor
  · simp only [track_insects_one_file]
    decide
  · decide

/-- Claim C9: a run is a pure function of its inputs — two runs with identical
ordered detections, identical zone and identical parameters (including the
same library collaborators) produce identical results: the same surviving
tracks (ids, position and frame-id sequences) and the same classification
counts. -/
theorem claim_C9 {κ : Type} (O O' : Oracle κ) (dth dth' : ℚ) (maxAge maxAge' : ℕ)
    (dets dets' : List (ℤ × List Obs)) (e e' : Option Ellipse)
    (hO : O = O') (hdth : dth = dth') (hmax : maxAge = maxAge')
    (hdets : dets = dets') (he : e = e') :
    track_insects_one_file O dth maxAge dets e =
      track_insects_one_file O' dth' maxAge' dets' e' := by
  subst hO hdth hmax hdets he
  rfl

/-- Witness for claim C9 at a concrete run. -/
theorem claim_C9_witness :
    track_insects_one_file oracle0 50 20 dets0 Option.none =
      track_insects_one_file oracle0 50 20 dets0 Option.none :=
  claim_C9 oracle0 oracle0 50 50 20 20 dets0 dets0 Option.none Option.none
    rfl rfl rfl rfl rfl

/-! ## Lemmas about the match phase -/

theorem modifyIdx_length {α : Type} (f : α → α) (i : ℕ) (l : List α) :
    (modifyIdx f i l).length = l.length := by
  induction l generalizing i with
  | nil => cases i <;> rfl
  | cons a as ih => cases i with
    | zero => rfl
    | succ n => simpa [modifyIdx] using ih n

theorem modifyIdx_getElem?_ne {α : Type} (f : α → α) {i j : ℕ} (h : i ≠ j)
    (l : List α) : (modifyIdx f i l)[j]? = l[j]? := by
  induction l generalizing i j with
  | nil => cases i <;> rfl
  | cons a as ih =>
    cases i with
    | zero => cases j with
      | zero => exact absurd rfl h
      | succ m => simp [modifyIdx]
    | succ n => cases j with
      | zero => simp [modifyIdx]
      | succ m => simpa [modifyIdx] using ih (fun hnm => h (by omega)) ..

theorem modifyIdx_getElem?_self {α : Type} (f : α → α) (i : ℕ) (l : List α) :
    (modifyIdx f i l)[i]? = (l[i]?).map f := by
  induction l generalizing i with
  | nil => cases i <;> rfl
  | cons a as ih => cases i with
    | zero => simp [modifyIdx]
    | succ n => simpa [modifyIdx] using ih n

theorem modifyIdx_map {α β : Type} (g : α → β) (f : α → α)
    (h : ∀ a, g (f a) = g a) (i : ℕ) (l : List α) :
    (modifyIdx f i l).map g = l.map g := by
  induction l generalizing i with
  | nil => cases i <;> rfl
  | cons a as ih => cases i with
    | zero => simp [modifyIdx, h]
    | succ n => simp [modifyIdx, ih n]

theorem applyMatches_length {κ : Type} (O : Oracle κ) (dth : ℚ) (frame : ℤ)
    (obs : List Obs) (cost : ℕ → ℕ → ℚ) (ts : List (Track κ))
    (ps : List (ℕ × ℕ)) :
    (applyMatches O dth frame obs cost ts ps).length = ts.length := by
  induction ps generalizing ts with
  | nil => rfl
  | cons p ps ih =>
    obtain ⟨i, j⟩ := p
    simp only [applyMatches]
    split
    · rw [ih, modifyIdx_length]
    · exact ih ts

/-- Tracks whose index is never hit by an accepted pair are untouched by the
match phase. -/
theorem applyMatches_getElem?_untouched {κ : Type} (O : Oracle κ) (dth : ℚ)
    (frame : ℤ) (obs : List Obs) (cost : ℕ → ℕ → ℚ) (ts : List (Track κ))
    (ps : List (ℕ × ℕ)) {i : ℕ}
    (h : ∀ p ∈ ps, cost p.1 p.2 < dth → p.1 ≠ i) :
    (applyMatches O dth frame obs cost ts ps)[i]? = ts[i]? := by
  induction ps generalizing ts with
  | nil => rfl
  | cons p ps ih =>
    obtain ⟨a, b⟩ := p
    simp only [applyMatches]
    split
    · rename_i hacc
      rw [ih _ (fun q hq => h q (List.mem_cons_of_mem _ hq)),
        modifyIdx_getElem?_ne _ (h (a, b) (List.mem_cons_self _ _) hacc)]
    · exact ih ts (fun q hq => h q (List.mem_cons_of_mem _ hq))

/-- The track at the index of an accepted pair receives exactly one
application of the match body, with that pair's observation and cost. -/
theorem applyMatches_getElem?_matched {κ : Type} (O : Oracle κ) (dth : ℚ)
    (frame : ℤ) (obs : List Obs) (cost : ℕ → ℕ → ℚ) (ts : List (Track κ))
    (ps : List (ℕ × ℕ)) {i j : ℕ} (hmem : (i, j) ∈ ps)
    (hacc : cost i j < dth) (hnd : (ps.map Prod.fst).Nodup) :
    (applyMatches O dth frame obs cost ts ps)[i]? =
      (ts[i]?).map (matchTrack O frame (obs.getD j (0, 0)) (cost i j)) := by
  induction ps generalizing ts with
  | nil => exact absurd hmem (List.not_mem_nil _)
  | cons p ps ih =>
    obtain ⟨a, b⟩ := p
    simp only [List.map_cons, List.nodup_cons] at hnd
    rcases List.mem_cons.mp hmem with heq | htail
    · obtain ⟨h1, h2⟩ := Prod.mk.injEq i j a b ▸ heq
      subst h1
      subst h2
      simp only [applyMatches, if_pos hacc]
      rw [applyMatches_getElem?_untouched _ _ _ _ _ _ _
          (fun q hq _ => fun hqi =>
            hnd.1 (by rw [← hqi]; exact List.mem_map_of_mem Prod.fst hq)),
        modifyIdx_getElem?_self]
    · have hai : a ≠ i := fun hai =>
        hnd.1 (by rw [hai]; exact List.mem_map_of_mem Prod.fst htail)
      simp only [applyMatches]
      split
      · rw [ih _ htail hnd.2, modifyIdx_getElem?_ne _ hai]
      · exact ih ts htail hnd.2

/-- The match phase never changes a track's id. -/
theorem applyMatches_map_id {κ : Type} (O : Oracle κ) (dth : ℚ) (frame : ℤ)
    (obs : List Obs) (cost : ℕ → ℕ → ℚ) (ts : List (Track κ))
    (ps : List (ℕ × ℕ)) :
    (applyMatches O dth frame obs cost ts ps).map (·.id) = ts.map (·.id) := by
  induction ps generalizing ts with
  | nil => rfl
  | cons p ps ih =>
    obtain ⟨i, j⟩ := p
    simp only [applyMatches]
    split
    · rw [ih]
      exact modifyIdx_map (Track.id)
        (matchTrack O frame (obs.getD j (0, 0)) (cost i j)) (fun t => rfl) i ts
    · exact ih ts

/-! ## Lemmas about the birth phase -/

theorem bornTracks_map_id {κ : Type} (O : Oracle κ) (frame : ℤ) (obs : List Obs)
    (s : ℕ) (js : List ℕ) :
    (bornTracks O frame obs s js).map (·.id) = List.range' s js.length := by
  induction js generalizing s with
  | nil => rfl
  | cons j js ih => simp [bornTracks, List.range', ih]

theorem bornTracks_length {κ : Type} (O : Oracle κ) (frame : ℤ) (obs : List Obs)
    (s : ℕ) (js : List ℕ) :
    (bornTracks O frame obs s js).length = js.length := by
  induction js generalizing s with
  | nil => rfl
  | cons j js ih => simp [bornTracks, ih]

theorem bornTracks_map_positions {κ : Type} (O : Oracle κ) (frame : ℤ)
    (obs : List Obs) (s : ℕ) (js : List ℕ) :
    (bornTracks O frame obs s js).map (·.positions) =
      js.map (fun j => [obs.getD j (0, 0)]) := by
  induction js generalizing s with
  | nil => rfl
  | cons j js ih => simp [bornTracks, ih]

theorem bornTracks_map_frame_ids {κ : Type} (O : Oracle κ) (frame : ℤ)
    (obs : List Obs) (s : ℕ) (js : List ℕ) :
    (bornTracks O frame obs s js).map (·.frame_ids) = js.map (fun _ => [frame]) := by
  induction js generalizing s with
  | nil => rfl
  | cons j js ih => simp [bornTracks, ih]

theorem bornTracks_last_seen {κ : Type} (O : Oracle κ) (frame : ℤ)
    (obs : List Obs) (s : ℕ) (js : List ℕ) :
    ∀ t ∈ bornTracks O frame obs s js, t.last_seen = 0 := by
  induction js generalizing s with
  | nil => intro t ht; exact absurd ht (List.not_mem_nil t)
  | cons j js ih =>
    intro t ht
    rcases List.mem_cons.mp ht with rfl | h
    · rfl
    · exact ih (s + 1) t h

theorem bornTracks_exists_of_mem {κ : Type} (O : Oracle κ) (frame : ℤ)
    (obs : List Obs) (s : ℕ) (js : List ℕ) :
    ∀ j ∈ js, ∃ t ∈ bornTracks O frame obs s js,
      t.positions = [obs.getD j (0, 0)] ∧ t.frame_ids = [frame] := by
  induction js generalizing s with
  | nil => intro j hj; exact absurd hj (List.not_mem_nil j)
  | cons j' js ih =>
    intro j hj
    rcases List.mem_cons.mp hj with rfl | h
    · exact ⟨_, List.mem_cons_self _ _, rfl, rfl⟩
    · obtain ⟨t, ht, hp, hf⟩ := ih (s + 1) j h
      exact ⟨t, List.mem_cons_of_mem _ ht, hp, hf⟩

/-! ## Membership characterisations for accepted and birth indices -/

theorem mem_acceptedPairs {dth : ℚ} {cost : ℕ → ℕ → ℚ} {pairs : List (ℕ × ℕ)}
    {p : ℕ × ℕ} :
    p ∈ acceptedPairs dth cost pairs ↔ p ∈ pairs ∧ cost p.1 p.2 < dth := by
  simp [acceptedPairs, List.mem_filter]

theorem mem_assignedObs {dth : ℚ} {cost : ℕ → ℕ → ℚ} {pairs : List (ℕ × ℕ)}
    {j : ℕ} :
    j ∈ assignedObs dth cost pairs ↔
      ∃ p ∈ pairs, cost p.1 p.2 < dth ∧ p.2 = j := by
  simp only [assignedObs, List.mem_map, mem_acceptedPairs]
  constructor
  · rintro ⟨p, ⟨hp, hc⟩, rfl⟩; exact ⟨p, hp, hc, rfl⟩
  · rintro ⟨p, hp, hc, rfl⟩; exact ⟨p, ⟨hp, hc⟩, rfl⟩

theorem mem_birthIdx {assigned : List ℕ} {n j : ℕ} :
    j ∈ birthIdx assigned n ↔ j < n ∧ j ∉ assigned := by
  simp [birthIdx, List.mem_filter, List.mem_range]

theorem not_mem_accepted_fst {dth : ℚ} {cost : ℕ → ℕ → ℚ}
    {pairs : List (ℕ × ℕ)} {i : ℕ} :
    i ∉ (acceptedPairs dth cost pairs).map Prod.fst ↔
      ∀ p ∈ pairs, cost p.1 p.2 < dth → p.1 ≠ i := by
  simp only [List.mem_map, mem_acceptedPairs, not_exists]
  constructor
  · intro h p hp hc hpi
    exact h p ⟨⟨hp, hc⟩, hpi⟩
  · rintro h p ⟨⟨hp, hc⟩, hpi⟩
    exact h p hp hc hpi

/-- Every observation index is consumed exactly once: the accepted indices and
the birth indices together are a permutation of `range n`. -/
theorem assigned_birth_perm {assigned : List ℕ} {n : ℕ} (hnd : assigned.Nodup)
    (hlt : ∀ j ∈ assigned, j < n) :
    (assigned ++ birthIdx assigned n).Perm (List.range n) := by
  have hfilter : birthIdx assigned n =
      (List.range n).filter (fun j => !decide (j ∈ assigned)) := by
    simp [birthIdx]
  have h2 : assigned.Perm ((List.range n).filter (fun j => decide (j ∈ assigned))) := by
    refine List.perm_of_nodup_nodup_toFinset_eq hnd
      (List.Nodup.filter _ (List.nodup_range n)) ?_
    ext x
    simp only [List.mem_toFinset, List.mem_filter, List.mem_range,
      decide_eq_true_eq]
    exact ⟨fun hx => ⟨hlt x hx, hx⟩, fun hx => hx.2⟩
  rw [hfilter]
  exact (h2.append (List.Perm.refl _)).trans
    (List.filter_append_perm (fun j => decide (j ∈ assigned)) (List.range n))

/-- Well-formedness of the proposed assignment, guaranteed by
`scipy.optimize.linear_sum_assignment`: row indices pairwise distinct, column
indices pairwise distinct, all indices within the cost-matrix bounds. -/
def WfAssign (pairs : List (ℕ × ℕ)) (m n : ℕ) : Prop :=
  (pairs.map Prod.fst).Nodup ∧ (pairs.map Prod.snd).Nodup ∧
    ∀ p ∈ pairs, p.1 < m ∧ p.2 < n

/-- Claim C3: every accepted match has cost — the oracle distance between the
track's predicted position and the detection — strictly below
`distance_threshold`; a proposed pair whose cost is not strictly below the
threshold leaves its track untouched by the match phase and its detection
unassigned, so the detection births a new track. -/
theorem claim_C3 {κ : Type} (O : Oracle κ) (dth : ℚ) (frame : ℤ)
    (obs : List Obs) (st : EngineState κ) (ts1 : List (Track κ))
    (cost : ℕ → ℕ → ℚ) (pairs : List (ℕ × ℕ))
    (hts1 : ts1 = predictPhase O st.tracks)
    (hcost : cost = costOf O ts1 obs)
    (hpairs : pairs = pairsOf O ts1 obs)
    (hwf : WfAssign pairs ts1.length obs.length) :
    (∀ p ∈ acceptedPairs dth cost pairs,
      cost p.1 p.2 < dth ∧
      ∃ t, ts1[p.1]? = some t ∧
        cost p.1 p.2 = O.dist (O.pos t.kf) (obs.getD p.2 (0, 0))) ∧
    (∀ p ∈ pairs, ¬ cost p.1 p.2 < dth →
      (applyMatches O dth frame obs cost ts1 pairs)[p.1]? = ts1[p.1]? ∧
      p.2 ∉ assignedObs dth cost pairs ∧
      ∃ t ∈ bornTracks O frame obs st.track_id
          (birthIdx (assignedObs dth cost pairs) obs.length),
        t.positions = [obs.getD p.2 (0, 0)] ∧ t.frame_ids = [frame]) := by
  obtain ⟨hnd1, hnd2, hbound⟩ := hwf
  constructor
  · intro p hp
    obtain ⟨hmem, hc⟩ := mem_acceptedPairs.mp hp
    obtain ⟨h1, h2⟩ := hbound p hmem
    refine ⟨hc, ts1[p.1], List.getElem?_eq_getElem h1, ?_⟩
    rw [hcost]
    simp [costOf, List.getElem?_eq_getElem h1, List.getElem?_eq_getElem h2]
  · intro p hp hrej
    have hnotacc : ∀ q ∈ pairs, cost q.1 q.2 < dth → q.1 ≠ p.1 := by
      intro q hq hqc hq1
      have : q = p := List.inj_on_of_nodup_map hnd1 hq hp hq1
      exact hrej (this ▸ hqc)
    have hnotassigned : p.2 ∉ assignedObs dth cost pairs := by
      intro hmem
      obtain ⟨q, hq, hqc, hq2⟩ := mem_assignedObs.mp hmem
      have : q = p := List.inj_on_of_nodup_map hnd2 hq hp hq2
      exact hrej (this ▸ hqc)
    refine ⟨applyMatches_getElem?_untouched _ _ _ _ _ _ _ hnotacc,
      hnotassigned, ?_⟩
    exact bornTracks_exists_of_mem O frame obs st.track_id _ p.2
      (mem_birthIdx.mpr ⟨(hbound p hp).2, hnotassigned⟩)

/-- A one-observation, zero-track scenario: the concrete values of the first
frame of a run on `[(0, 0)]`. -/
def ts1w : List (Track (ℚ × ℚ)) :=
  predictPhase oracle0 (initState : EngineState (ℚ × ℚ)).tracks

/-- Cost matrix of the witness scenario. -/
def costw : ℕ → ℕ → ℚ := costOf oracle0 ts1w [((0 : ℚ), (0 : ℚ))]

/-- Proposed pairs of the witness scenario. -/
def pairsw : List (ℕ × ℕ) := pairsOf oracle0 ts1w [((0 : ℚ), (0 : ℚ))]

/-- Witness for claim C3 at the concrete first frame of a run. -/
theorem claim_C3_witness :
    (∀ p ∈ acceptedPairs 50 costw pairsw,
      costw p.1 p.2 < 50 ∧
      ∃ t, ts1w[p.1]? = some t ∧
        costw p.1 p.2 = oracle0.dist (oracle0.pos t.kf)
          (List.getD [((0 : ℚ), (0 : ℚ))] p.2 (0, 0))) ∧
    (∀ p ∈ pairsw, ¬ costw p.1 p.2 < 50 →
      (applyMatches oracle0 50 1 [((0 : ℚ), (0 : ℚ))] costw ts1w pairsw)[p.1]? =
        ts1w[p.1]? ∧
      p.2 ∉ assignedObs 50 costw pairsw ∧
      ∃ t ∈ bornTracks oracle0 1 [((0 : ℚ), (0 : ℚ))]
          (initState : EngineState (ℚ × ℚ)).track_id
          (birthIdx (assignedObs 50 costw pairsw)
            (List.length [((0 : ℚ), (0 : ℚ))])),
        t.positions = [List.getD [((0 : ℚ), (0 : ℚ))] p.2 (0, 0)] ∧
        t.frame_ids = [(1 : ℤ)]) :=
  claim_C3 oracle0 50 1 [((0 : ℚ), (0 : ℚ))] initState ts1w costw pairsw
    rfl rfl rfl ⟨by decide, by decide, by decide⟩

/-- Claim C4: at the end of a frame, `last_seen` is 0 exactly for the tracks
that received an accepted match and for the tracks born in this frame, and
every other track's `last_seen` is its previous value plus exactly one (the
increment of the predict phase, never reset). -/
theorem claim_C4 {κ : Type} (O : Oracle κ) (dth : ℚ) (maxAge : ℕ) (frame : ℤ)
    (obs : List Obs) (st : EngineState κ) (ts1 : List (Track κ))
    (cost : ℕ → ℕ → ℚ) (pairs : List (ℕ × ℕ))
    (hts1 : ts1 = predictPhase O st.tracks)
    (hcost : cost = costOf O ts1 obs)
    (hpairs : pairs = pairsOf O ts1 obs)
    (hwf : WfAssign pairs ts1.length obs.length) :
    ((step O dth maxAge frame obs st).tracks =
      (applyMatches O dth frame obs cost ts1 pairs ++
        bornTracks O frame obs st.track_id
          (birthIdx (assignedObs dth cost pairs) obs.length)).filter
        (fun t => t.last_seen ≤ maxAge)) ∧
    (∀ p ∈ acceptedPairs dth cost pairs,
      ((applyMatches O dth frame obs cost ts1 pairs)[p.1]?).map
        (fun t => t.last_seen) = some 0) ∧
    (∀ i < ts1.length, i ∉ (acceptedPairs dth cost pairs).map Prod.fst →
      ((applyMatches O dth frame obs cost ts1 pairs)[i]?).map
        (fun t => t.last_seen) =
        (st.tracks[i]?).map (fun t => t.last_seen + 1)) ∧
    (∀ t ∈ bornTracks O frame obs st.track_id
        (birthIdx (assignedObs dth cost pairs) obs.length),
      t.last_seen = 0) := by
  obtain ⟨hnd1, hnd2, hbound⟩ := hwf
  refine ⟨?_, ?_, ?_, bornTracks_last_seen O frame obs st.track_id _⟩
  · subst hts1 hcost hpairs
    rfl
  · intro p hp
    obtain ⟨i, j⟩ := p
    obtain ⟨hmem, hc⟩ := mem_acceptedPairs.mp hp
    have h1 := (hbound (i, j) hmem).1
    rw [applyMatches_getElem?_matched O dth frame obs cost ts1 pairs hmem hc hnd1,
      List.getElem?_eq_getElem h1]
    rfl
  · intro i hi hnot
    rw [applyMatches_getElem?_untouched _ _ _ _ _ _ _
        (not_mem_accepted_fst.mp hnot)]
    subst hts1
    simp only [predictPhase, List.getElem?_map, Option.map_map]
    cases st.tracks[i]? <;> rfl

/-- Witness for claim C4 at the concrete first frame of a run. -/
theorem claim_C4_witness :
    ((step oracle0 50 20 1 [((0 : ℚ), (0 : ℚ))]
        (initState : EngineState (ℚ × ℚ))).tracks =
      (applyMatches oracle0 50 1 [((0 : ℚ), (0 : ℚ))] costw ts1w pairsw ++
        bornTracks oracle0 1 [((0 : ℚ), (0 : ℚ))]
          (initState : EngineState (ℚ × ℚ)).track_id
          (birthIdx (assignedObs 50 costw pairsw)
            (List.length [((0 : ℚ), (0 : ℚ))]))).filter
        (fun t => t.last_seen ≤ 20)) ∧
    (∀ p ∈ acceptedPairs 50 costw pairsw,
      ((applyMatches oracle0 50 1 [((0 : ℚ), (0 : ℚ))] costw ts1w pairsw)[p.1]?).map
        (fun t => t.last_seen) = some 0) ∧
    (∀ i < ts1w.length, i ∉ (acceptedPairs 50 costw pairsw).map Prod.fst →
      ((applyMatches oracle0 50 1 [((0 : ℚ), (0 : ℚ))] costw ts1w pairsw)[i]?).map
        (fun t => t.last_seen) =
        ((initState : EngineState (ℚ × ℚ)).tracks[i]?).map
          (fun t => t.last_seen + 1)) ∧
    (∀ t ∈ bornTracks oracle0 1 [((0 : ℚ), (0 : ℚ))]
        (initState : EngineState (ℚ × ℚ)).track_id
        (birthIdx (assignedObs 50 costw pairsw)
          (List.length [((0 : ℚ), (0 : ℚ))])),
      t.last_seen = 0) :=
  claim_C4 oracle0 50 20 1 [((0 : ℚ), (0 : ℚ))] initState ts1w costw pairsw
    rfl rfl rfl ⟨by decide, by decide, by decide⟩

/-- Claim C10: each detection of a frame is consumed exactly once — the
accepted observation indices plus the birth indices are a permutation of all
observation indices; an accepted detection is appended (with the frame id) to
exactly the one matched track, all other tracks are untouched; each unmatched
detection births exactly one track with singleton `positions` and
`frame_ids`. -/
theorem claim_C10 {κ : Type} (O : Oracle κ) (dth : ℚ) (frame : ℤ)
    (obs : List Obs) (st : EngineState κ) (ts1 : List (Track κ))
    (cost : ℕ → ℕ → ℚ) (pairs : List (ℕ × ℕ))
    (hts1 : ts1 = predictPhase O st.tracks)
    (hcost : cost = costOf O ts1 obs)
    (hpairs : pairs = pairsOf O ts1 obs)
    (hwf : WfAssign pairs ts1.length obs.length) :
    ((assignedObs dth cost pairs ++
        birthIdx (assignedObs dth cost pairs) obs.length).Perm
      (List.range obs.length)) ∧
    (∀ p ∈ acceptedPairs dth cost pairs,
      ((applyMatches O dth frame obs cost ts1 pairs)[p.1]?).map
          (fun t => t.positions) =
        (ts1[p.1]?).map (fun t => t.positions ++ [obs.getD p.2 (0, 0)]) ∧
      ((applyMatches O dth frame obs cost ts1 pairs)[p.1]?).map
          (fun t => t.frame_ids) =
        (ts1[p.1]?).map (fun t => t.frame_ids ++ [frame])) ∧
    (∀ i, i ∉ (acceptedPairs dth cost pairs).map Prod.fst →
      (applyMatches O dth frame obs cost ts1 pairs)[i]? = ts1[i]?) ∧
    ((bornTracks O frame obs st.track_id
        (birthIdx (assignedObs dth cost pairs) obs.length)).map
        (fun t => t.positions) =
      (birthIdx (assignedObs dth cost pairs) obs.length).map
        (fun j => [obs.getD j (0, 0)])) ∧
    ((bornTracks O frame obs st.track_id
        (birthIdx (assignedObs dth cost pairs) obs.length)).map
        (fun t => t.frame_ids) =
      (birthIdx (assignedObs dth cost pairs) obs.length).map
        (fun _ => [frame])) := by
  obtain ⟨hnd1, hnd2, hbound⟩ := hwf
  refine ⟨?_, ?_, ?_, bornTracks_map_positions O frame obs st.track_id _,
    bornTracks_map_frame_ids O frame obs st.track_id _⟩
  · apply assigned_birth_perm
    · exact List.Nodup.sublist
        (List.Sublist.map Prod.snd (List.filter_sublist pairs)) hnd2
    · intro j hj
      obtain ⟨p, hp, _, hpj⟩ := mem_assignedObs.mp hj
      exact hpj ▸ (hbound p hp).2
  · intro p hp
    obtain ⟨i, j⟩ := p
    obtain ⟨hmem, hc⟩ := mem_acceptedPairs.mp hp
    rw [applyMatches_getElem?_matched O dth frame obs cost ts1 pairs hmem hc hnd1]
    cases ts1[i]? <;> exact ⟨rfl, rfl⟩
  · intro i hnot
    exact applyMatches_getElem?_untouched _ _ _ _ _ _ _
      (not_mem_accepted_fst.mp hnot)

/-- Witness for claim C10 at the concrete first frame of a run. -/
theorem claim_C10_witness :
    ((assignedObs 50 costw pairsw ++
        birthIdx (assignedObs 50 costw pairsw)
          (List.length [((0 : ℚ), (0 : ℚ))])).Perm
      (List.range (List.length [((0 : ℚ), (0 : ℚ))]))) ∧
    (∀ p ∈ acceptedPairs 50 costw pairsw,
      ((applyMatches oracle0 50 1 [((0 : ℚ), (0 : ℚ))] costw ts1w pairsw)[p.1]?).map
          (fun t => t.positions) =
        (ts1w[p.1]?).map
          (fun t => t.positions ++ [List.getD [((0 : ℚ), (0 : ℚ))] p.2 (0, 0)]) ∧
      ((applyMatches oracle0 50 1 [((0 : ℚ), (0 : ℚ))] costw ts1w pairsw)[p.1]?).map
          (fun t => t.frame_ids) =
        (ts1w[p.1]?).map (fun t => t.frame_ids ++ [(1 : ℤ)])) ∧
    (∀ i, i ∉ (acceptedPairs 50 costw pairsw).map Prod.fst →
      (applyMatches oracle0 50 1 [((0 : ℚ), (0 : ℚ))] costw ts1w pairsw)[i]? =
        ts1w[i]?) ∧
    ((bornTracks oracle0 1 [((0 : ℚ), (0 : ℚ))]
        (initState : EngineState (ℚ × ℚ)).track_id
        (birthIdx (assignedObs 50 costw pairsw)
          (List.length [((0 : ℚ), (0 : ℚ))]))).map (fun t => t.positions) =
      (birthIdx (assignedObs 50 costw pairsw)
        (List.length [((0 : ℚ), (0 : ℚ))])).map
        (fun j => [List.getD [((0 : ℚ), (0 : ℚ))] j (0, 0)])) ∧
    ((bornTracks oracle0 1 [((0 : ℚ), (0 : ℚ))]
        (initState : EngineState (ℚ × ℚ)).track_id
        (birthIdx (assignedObs 50 costw pairsw)
          (List.length [((0 : ℚ), (0 : ℚ))]))).map (fun t => t.frame_ids) =
      (birthIdx (assignedObs 50 costw pairsw)
        (List.length [((0 : ℚ), (0 : ℚ))])).map (fun _ => [(1 : ℤ)])) :=
  claim_C10 oracle0 50 1 [((0 : ℚ), (0 : ℚ))] initState ts1w costw pairsw
    rfl rfl rfl ⟨by decide, by decide, by decide⟩

/-! ## Lemmas for the registry invariant -/

open scoped List

theorem mem_range'_one {s n m : ℕ} : m ∈ List.range' s n ↔ s ≤ m ∧ m < s + n := by
  rw [List.mem_range']
  constructor
  · rintro ⟨i, hi, rfl⟩
    omega
  · rintro ⟨hsm, hmn⟩
    exact ⟨m - s, by omega, by omega⟩

theorem pairwise_lt_range' : ∀ (n s : ℕ), (List.range' s n).Pairwise (· < ·)
  | 0, _ => List.Pairwise.nil
  | n + 1, s => by
    rw [List.range'_succ]
    refine List.Pairwise.cons (fun m hm => ?_) (pairwise_lt_range' n (s + 1))
    have := (mem_range'_one.mp hm).1
    omega

theorem nodup_range' (n s : ℕ) : (List.range' s n).Nodup :=
  (pairwise_lt_range' n s).imp Nat.ne_of_lt

theorem predictPhase_map_id {κ : Type} (O : Oracle κ) (ts : List (Track κ)) :
    (predictPhase O ts).map (fun t => t.id) = ts.map (fun t => t.id) := by
  simp only [predictPhase, List.map_map]
  rfl

theorem registerPhase_append {κ : Type} (ids : List ℕ) (as bs : List (Track κ)) :
    registerPhase ids (as ++ bs) = registerPhase (registerPhase ids as) bs := by
  simp [registerPhase, List.foldl_append]

theorem registerPhase_of_mem {κ : Type} (ids : List ℕ) (as : List (Track κ))
    (ha : ∀ a ∈ as, a.id ∈ ids) : registerPhase ids as = ids := by
  induction as generalizing ids with
  | nil => rfl
  | cons a as ih =>
    simp only [registerPhase, List.foldl_cons] at *
    rw [if_pos (ha a (List.mem_cons_self _ _))]
    exact ih ids fun b hb => ha b (List.mem_cons_of_mem _ hb)

theorem registerPhase_fresh {κ : Type} (ids : List ℕ) (bs : List (Track κ))
    (hb : ∀ b ∈ bs, b.id ∉ ids) (hbn : (bs.map (fun t => t.id)).Nodup) :
    registerPhase ids bs = ids ++ bs.map (fun t => t.id) := by
  induction bs generalizing ids with
  | nil => simp [registerPhase]
  | cons b bs ih =>
    simp only [List.map_cons, List.nodup_cons] at hbn
    have hfresh : ∀ c ∈ bs, c.id ∉ ids ++ [b.id] := by
      intro c hc hmem
      rcases List.mem_append.mp hmem with h | h
      · exact hb c (List.mem_cons_of_mem _ hc) h
      · exact hbn.1 ((List.mem_singleton.mp h) ▸ List.mem_map_of_mem _ hc)
    simp only [registerPhase, List.foldl_cons] at *
    rw [if_neg (hb b (List.mem_cons_self _ _)), ih (ids ++ [b.id]) hfresh hbn.2,
      List.append_assoc]
    rfl

/-- The run invariant of the frame loop: the registry ids are exactly the
ids of all tracks ever created, in creation order; ids are strictly
increasing; every live or dead track is registered, each created id is
carried by exactly one track dict; no active track has outlived the age
bound. -/
def RunInv {κ : Type} (maxAge : ℕ) (st : EngineState κ) : Prop :=
  st.all_ids = st.created ∧
  st.created.Pairwise (· < ·) ∧
  (∀ i ∈ st.created, i < st.track_id) ∧
  ((st.tracks ++ st.dead).map (fun t => t.id)).Perm st.created ∧
  (∀ t ∈ st.tracks, t.id ∈ st.all_ids) ∧
  (∀ t ∈ st.tracks, t.last_seen ≤ maxAge)

theorem runInv_initState {κ : Type} (maxAge : ℕ) :
    RunInv maxAge (initState : EngineState κ) := by
  refine ⟨rfl, List.Pairwise.nil, ?_, List.Perm.refl _, ?_, ?_⟩ <;>
    intro x hx <;> exact absurd hx (List.not_mem_nil x)

/-- The generic shape of one frame step: any id-preserving match phase
followed by a birth phase with fresh consecutive ids, pruning and
registration, preserves the invariant. -/
theorem runInv_step_general {κ : Type} (maxAge : ℕ) (st : EngineState κ)
    (ts2 born : List (Track κ))
    (hts2 : ts2.map (fun t => t.id) = st.tracks.map (fun t => t.id))
    (hborn : born.map (fun t => t.id) = List.range' st.track_id born.length)
    (hbornseen : ∀ t ∈ born, t.last_seen = 0)
    (h : RunInv maxAge st) :
    RunInv maxAge
      { tracks := (ts2 ++ born).filter fun t => t.last_seen ≤ maxAge
        dead := st.dead ++ (ts2 ++ born).filter fun t => ¬ t.last_seen ≤ maxAge
        all_ids := registerPhase st.all_ids
          ((ts2 ++ born).filter fun t => t.last_seen ≤ maxAge)
        track_id := st.track_id + born.length
        created := st.created ++ born.map (fun t => t.id) } := by
  obtain ⟨h1, h2, h3, h4, h5, h6⟩ := h
  have hmem_ts2 : ∀ a ∈ ts2, a.id ∈ st.all_ids := by
    intro a ha
    have : a.id ∈ ts2.map (fun t => t.id) := List.mem_map_of_mem _ ha
    rw [hts2] at this
    obtain ⟨u, hu, hui⟩ := List.mem_map.mp this
    exact hui ▸ h5 u hu
  have hfresh : ∀ b ∈ born, b.id ∉ st.all_ids := by
    intro b hb hmem
    have : b.id ∈ born.map (fun t => t.id) := List.mem_map_of_mem _ hb
    rw [hborn] at this
    have hle := (mem_range'_one.mp this).1
    rw [h1] at hmem
    have := h3 b.id hmem
    omega
  have hbornnodup : (born.map (fun t => t.id)).Nodup := by
    rw [hborn]; exact nodup_range' born.length st.track_id
  have hbornkeep : born.filter (fun t => t.last_seen ≤ maxAge) = born := by
    rw [List.filter_eq_self]
    intro t ht
    simp [hbornseen t ht]
  have hkeep : (ts2 ++ born).filter (fun t => t.last_seen ≤ maxAge) =
      ts2.filter (fun t => t.last_seen ≤ maxAge) ++ born := by
    rw [List.filter_append, hbornkeep]
  have hreg : registerPhase st.all_ids
      ((ts2 ++ born).filter fun t => t.last_seen ≤ maxAge) =
      st.all_ids ++ born.map (fun t => t.id) := by
    rw [hkeep, registerPhase_append,
      registerPhase_of_mem _ _ (fun a ha => hmem_ts2 a (List.mem_of_mem_filter ha)),
      registerPhase_fresh _ _ hfresh hbornnodup]
  unfold RunInv
  dsimp only
  refine ⟨?_, ?_, ?_, ?_, ?_, ?_⟩
  · rw [hreg, h1]
  · rw [List.pairwise_append]
    refine ⟨h2, by rw [hborn]; exact pairwise_lt_range' born.length st.track_id, ?_⟩
    intro i hi j hj
    have hij := h3 i hi
    rw [hborn] at hj
    have := (mem_range'_one.mp hj).1
    omega
  · intro i hi
    rcases List.mem_append.mp hi with hi | hi
    · have := h3 i hi
      omega
    · rw [hborn] at hi
      have := (mem_range'_one.mp hi).2
      omega
  · -- permutation of the historical registry
    have hfilters : ((ts2 ++ born).filter fun t => t.last_seen ≤ maxAge) ++
        ((ts2 ++ born).filter fun t => ¬ t.last_seen ≤ maxAge) ~ ts2 ++ born := by
      have := List.filter_append_perm
        (fun t : Track κ => decide (t.last_seen ≤ maxAge)) (ts2 ++ born)
      simpa only [decide_not] using this
    calc ((((ts2 ++ born).filter fun t => t.last_seen ≤ maxAge) ++
            (st.dead ++ (ts2 ++ born).filter fun t => ¬ t.last_seen ≤ maxAge)).map
          (fun t => t.id))
        ~ ((((ts2 ++ born).filter fun t => t.last_seen ≤ maxAge) ++
            ((ts2 ++ born).filter fun t => ¬ t.last_seen ≤ maxAge) ++ st.dead).map
          (fun t => t.id)) := by
          refine List.Perm.map _ ?_
          rw [List.append_assoc]
          exact List.Perm.append_left _ (List.perm_append_comm)
      _ ~ ((ts2 ++ born ++ st.dead).map (fun t => t.id)) :=
          List.Perm.map _ (List.Perm.append_right st.dead hfilters)
      _ ~ st.created ++ born.map (fun t => t.id) := by
          simp only [List.map_append]
          calc ts2.map (fun t => t.id) ++ born.map (fun t => t.id) ++
                st.dead.map (fun t => t.id)
              = st.tracks.map (fun t => t.id) ++ born.map (fun t => t.id) ++
                st.dead.map (fun t => t.id) := by rw [hts2]
            _ ~ st.tracks.map (fun t => t.id) ++ st.dead.map (fun t => t.id) ++
                born.map (fun t => t.id) := by
                rw [List.append_assoc, List.append_assoc]
                exact List.Perm.append_left _ (List.perm_append_comm)
            _ ~ st.created ++ born.map (fun t => t.id) := by
                refine List.Perm.append_right _ ?_
                rw [← List.map_append]
                exact h4
  · intro t ht
    rw [hreg]
    rw [hkeep] at ht
    rcases List.mem_append.mp ht with ht | ht
    · exact List.mem_append_left _ (hmem_ts2 t (List.mem_of_mem_filter ht))
    · exact List.mem_append_right _ (List.mem_map_of_mem _ ht)
  · intro t ht
    have := List.of_mem_filter ht
    simpa using this

/-- The invariant holds after each frame step of the engine. -/
theorem runInv_step {κ : Type} (O : Oracle κ) (dth : ℚ) (maxAge : ℕ) (frame : ℤ)
    (obs : List Obs) (st : EngineState κ) (h : RunInv maxAge st) :
    RunInv maxAge (step O dth maxAge frame obs st) := by
  have hts2 : (applyMatches O dth frame obs
      (costOf O (predictPhase O st.tracks) obs) (predictPhase O st.tracks)
      (pairsOf O (predictPhase O st.tracks) obs)).map (fun t => t.id) =
      st.tracks.map (fun t => t.id) := by
    rw [applyMatches_map_id]
    exact predictPhase_map_id O st.tracks
  have hborn := bornTracks_map_id O frame obs st.track_id
    (birthIdx (assignedObs dth (costOf O (predictPhase O st.tracks) obs)
      (pairsOf O (predictPhase O st.tracks) obs)) obs.length)
  rw [← bornTracks_length O frame obs st.track_id
    (birthIdx (assignedObs dth (costOf O (predictPhase O st.tracks) obs)
      (pairsOf O (predictPhase O st.tracks) obs)) obs.length)] at hborn
  exact runInv_step_general maxAge st _ _ hts2 hborn
    (bornTracks_last_seen O frame obs st.track_id _) h

/-- The invariant holds at the end of every frame of every run. -/
theorem runInv_runFrames {κ : Type} (O : Oracle κ) (dth : ℚ) (maxAge : ℕ)
    (dets : List (ℤ × List Obs)) (st : EngineState κ) (h : RunInv maxAge st) :
    RunInv maxAge (runFrames O dth maxAge dets st) := by
  induction dets generalizing st with
  | nil => exact h
  | cons d rest ih =>
    obtain ⟨f, obs⟩ := d
    exact ih _ (runInv_step O dth maxAge f obs st h)

/-- Claim C5: at the end of every frame of every run no active track has
`last_seen > max_frames_before_death` — a track is moved out of the active
set (into the pruned dicts) in exactly the frame its age exceeds the bound —
while the historical registry lists every track ever created exactly once by
id (and each created id is carried by exactly one track dict, live or
pruned). -/
theorem claim_C5 {κ : Type} (O : Oracle κ) (dth : ℚ) (maxAge : ℕ)
    (dets : List (ℤ × List Obs)) :
    (∀ t ∈ (runFrames O dth maxAge dets initState).tracks,
      t.last_seen ≤ maxAge) ∧
    (∀ (frame : ℤ) (obs : List Obs) (st : EngineState κ),
      (∀ t ∈ (step O dth maxAge frame obs st).tracks, t.last_seen ≤ maxAge) ∧
      (∀ t ∈ (step O dth maxAge frame obs st).dead,
        t ∈ st.dead ∨ ¬ t.last_seen ≤ maxAge)) ∧
    (runFrames O dth maxAge dets initState).all_ids =
      (runFrames O dth maxAge dets initState).created ∧
    (runFrames O dth maxAge dets initState).all_ids.Nodup ∧
    List.Perm
      (((runFrames O dth maxAge dets initState).tracks ++
        (runFrames O dth maxAge dets initState).dead).map (fun t => t.id))
      (runFrames O dth maxAge dets initState).created := by
  obtain ⟨h1, h2, h3, h4, h5, h6⟩ :=
    runInv_runFrames O dth maxAge dets initState (runInv_initState maxAge)
  refine ⟨h6, ?_, h1, ?_, h4⟩
  · intro frame obs st
    constructor
    · intro t ht
      simp only [step] at ht
      simpa using (List.of_mem_filter ht)
    · intro t ht
      simp only [step] at ht
      rcases List.mem_append.mp ht with ht | ht
      · exact Or.inl ht
      · right
        simpa using (List.of_mem_filter ht)
  · rw [h1]
    exact h2.imp Nat.ne_of_lt

/-- Claim C6: within a run the ids of all tracks ever created, in creation
order, form a strictly increasing (hence pairwise distinct) sequence. -/
theorem claim_C6 {κ : Type} (O : Oracle κ) (dth : ℚ) (maxAge : ℕ)
    (dets : List (ℤ × List Obs)) :
    (runFrames O dth maxAge dets initState).created.Pairwise (· < ·) :=
  (runInv_runFrames O dth maxAge dets initState (runInv_initState maxAge)).2.1

/-! ## Lemmas about the final filter and sort -/

theorem insertTrack_perm {κ : Type} (t : Track κ) (l : List (Track κ)) :
    List.Perm (insertTrack t l) (t :: l) := by
  induction l with
  | nil => exact List.Perm.refl _
  | cons u us ih =>
    simp only [insertTrack]
    split
    · exact (List.Perm.cons u ih).trans (List.Perm.swap t u us)
    · exact List.Perm.refl _

theorem sortTracksDesc_perm {κ : Type} (l : List (Track κ)) :
    List.Perm (sortTracksDesc l) l := by
  induction l with
  | nil => exact List.Perm.refl _
  | cons t ts ih => exact (insertTrack_perm t _).trans (List.Perm.cons t ih)

theorem insertTrack_pairwise {κ : Type} (t : Track κ) (l : List (Track κ))
    (h : l.Pairwise (fun a b => b.positions.length ≤ a.positions.length)) :
    (insertTrack t l).Pairwise
      (fun a b => b.positions.length ≤ a.positions.length) := by
  induction l with
  | nil => simp [insertTrack]
  | cons u us ih =>
    obtain ⟨hu, hus⟩ := List.pairwise_cons.mp h
    simp only [insertTrack]
    split
    · rename_i hlt
      refine List.pairwise_cons.mpr ⟨?_, ih hus⟩
      intro b hb
      rcases List.mem_cons.mp ((insertTrack_perm t us).mem_iff.mp hb) with rfl | hbu
      · exact Nat.le_of_lt hlt
      · exact hu b hbu
    · rename_i hge
      refine List.pairwise_cons.mpr ⟨?_, h⟩
      intro b hb
      rcases List.mem_cons.mp hb with rfl | hbus
      · exact Nat.le_of_not_lt hge
      · exact Nat.le_trans (hu b hbus) (Nat.le_of_not_lt hge)

theorem sortTracksDesc_pairwise {κ : Type} (l : List (Track κ)) :
    (sortTracksDesc l).Pairwise
      (fun a b => b.positions.length ≤ a.positions.length) := by
  induction l with
  | nil => exact List.Pairwise.nil
  | cons t ts ih => exact insertTrack_pairwise t _ ih

/-- Stability of the insertion: tracks of any fixed length keep their
relative order. -/
theorem insertTrack_filter_len {κ : Type} (t : Track κ) (l : List (Track κ))
    (k : ℕ) :
    (insertTrack t l).filter (fun u => u.positions.length == k) =
      (t :: l).filter (fun u => u.positions.length == k) := by
  induction l with
  | nil => rfl
  | cons u us ih =>
    simp only [insertTrack]
    split
    · rename_i hlt
      by_cases ht : t.positions.length = k
      · have hu : ¬ u.positions.length = k := by omega
        simp only [List.filter_cons, ih]
        simp [ht, hu]
      · simp only [List.filter_cons, ih]
        simp [ht]
    · rfl

theorem sortTracksDesc_filter_len {κ : Type} (l : List (Track κ)) (k : ℕ) :
    (sortTracksDesc l).filter (fun u => u.positions.length == k) =
      l.filter (fun u => u.positions.length == k) := by
  induction l with
  | nil => rfl
  | cons t ts ih =>
    calc (sortTracksDesc (t :: ts)).filter (fun u => u.positions.length == k)
        = (t :: sortTracksDesc ts).filter (fun u => u.positions.length == k) := by
          rw [sortTracksDesc, insertTrack_filter_len]
      _ = (t :: ts).filter (fun u => u.positions.length == k) := by
          simp only [List.filter_cons, ih]

theorem filterMap_find?_map_id {κ : Type} (l : List (Track κ)) :
    ∀ ids : List ℕ, (∀ i ∈ ids, ∃ t ∈ l, t.id = i) →
      (ids.filterMap (fun i => l.find? (fun t => t.id == i))).map
        (fun t => t.id) = ids := by
  intro ids
  induction ids with
  | nil => intro _; rfl
  | cons i ids ih =>
    intro h
    obtain ⟨t, ht, hti⟩ := h i (List.mem_cons_self _ _)
    have hsome : (l.find? (fun t => t.id == i)).isSome := by
      rw [List.find?_isSome]
      exact ⟨t, ht, by simp [hti]⟩
    obtain ⟨u, hu⟩ := Option.isSome_iff_exists.mp hsome
    have hui : u.id = i := by simpa using List.find?_some hu
    rw [List.filterMap_cons, hu]
    simp only [List.map_cons, hui]
    rw [ih (fun j hj => h j (List.mem_cons_of_mem _ hj))]

/-- Under the run invariant the reconstructed registry lists exactly the
registered ids, in registry order. -/
theorem finalRegistry_map_id {κ : Type} (st : EngineState κ)
    (h : ∀ i ∈ st.all_ids, ∃ t ∈ st.tracks ++ st.dead, t.id = i) :
    (finalRegistry st).map (fun t => t.id) = st.all_ids :=
  filterMap_find?_map_id _ _ h

/-- Claim C7: the surviving track list is a permutation of the registry
entries with more than 5 positions and cumulative distance above 100, sorted
by descending position count, with equal-length tracks keeping their registry
order — and the registry lists the created ids in creation order. -/
theorem claim_C7 {κ : Type} (O : Oracle κ) (dth : ℚ) (maxAge : ℕ)
    (dets : List (ℤ × List Obs)) :
    List.Perm (surviving (runFrames O dth maxAge dets initState))
      ((finalRegistry (runFrames O dth maxAge dets initState)).filter
        keptTrack) ∧
    (surviving (runFrames O dth maxAge dets initState)).Pairwise
      (fun a b => b.positions.length ≤ a.positions.length) ∧
    (∀ k : ℕ, (surviving (runFrames O dth maxAge dets initState)).filter
        (fun u => u.positions.length == k) =
      ((finalRegistry (runFrames O dth maxAge dets initState)).filter
        keptTrack).filter (fun u => u.positions.length == k)) ∧
    (finalRegistry (runFrames O dth maxAge dets initState)).map
        (fun t => t.id) =
      (runFrames O dth maxAge dets initState).created := by
  obtain ⟨h1, h2, h3, h4, h5, h6⟩ :=
    runInv_runFrames O dth maxAge dets initState (runInv_initState maxAge)
  refine ⟨sortTracksDesc_perm _, sortTracksDesc_pairwise _,
    fun k => sortTracksDesc_filter_len _ k, ?_⟩
  rw [← h1]
  apply finalRegistry_map_id
  intro i hi
  rw [h1] at hi
  obtain ⟨t, ht, hti⟩ := List.mem_map.mp (h4.mem_iff.mpr hi)
  exact ⟨t, ht, hti⟩
